import Mathlib

/-!
Verification of the coin-collector multiplayer server/client pair.

The Python sources (`server.py`, `client.py`) are shallowly embedded here:
float arithmetic is modelled by exact real arithmetic (`ℝ`, with
`math.hypot a b` rendered as `Real.sqrt (a^2 + b^2)`), dictionaries become
structures, and the line-framed message decoding becomes recursion on
`List Char` buffers. JSON serialization itself is external library code, so
the decoders are parametrised by an abstract `parse : List Char → Option M`.
-/

namespace CoinCollector

/-! ## Constants (server.py lines 11-22, client.py line 22) -/

def TICK_RATE : ℕ := 20

noncomputable def DT : ℝ := 1 / TICK_RATE

noncomputable def MAP_WIDTH : ℝ := 800

noncomputable def MAP_HEIGHT : ℝ := 600

noncomputable def PLAYER_SPEED : ℝ := 200

noncomputable def PLAYER_RADIUS : ℝ := 20

noncomputable def COIN_RADIUS : ℝ := 15

noncomputable def INTERP_DURATION : ℝ := 0.1

/-! ## Movement (server.py `game_loop`, lines 140-163) -/

/-- The four pending-input flags of a player (`p["input"]`). -/
structure Keys where
  up : Bool
  down : Bool
  left : Bool
  right : Bool
deriving DecidableEq

/-- Raw x movement: `dx -= 1` on left, `dx += 1` on right (lines 142-151). -/
def rawDx (k : Keys) : ℝ :=
  (if k.right then 1 else 0) - (if k.left then 1 else 0)

/-- Raw y movement: `dy -= 1` on up, `dy += 1` on down (lines 142-151). -/
def rawDy (k : Keys) : ℝ :=
  (if k.down then 1 else 0) - (if k.up then 1 else 0)

/-- `math.hypot` as used throughout `server.py`. -/
noncomputable def hypotR (a b : ℝ) : ℝ := Real.sqrt (a ^ 2 + b ^ 2)

/-- Normalised x component: `length = math.hypot(dx, dy); if length > 0: dx /= length`
(lines 153-156). -/
noncomputable def normDx (k : Keys) : ℝ :=
  if 0 < hypotR (rawDx k) (rawDy k) then rawDx k / hypotR (rawDx k) (rawDy k)
  else rawDx k

/-- Normalised y component (lines 153-156). -/
noncomputable def normDy (k : Keys) : ℝ :=
  if 0 < hypotR (rawDx k) (rawDy k) then rawDy k / hypotR (rawDx k) (rawDy k)
  else rawDy k

/-- `p["x"] = max(PLAYER_RADIUS, min(MAP_WIDTH - PLAYER_RADIUS, p["x"]))` (line 162). -/
noncomputable def clampX (x : ℝ) : ℝ :=
  max PLAYER_RADIUS (min (MAP_WIDTH - PLAYER_RADIUS) x)

/-- `p["y"] = max(PLAYER_RADIUS, min(MAP_HEIGHT - PLAYER_RADIUS, p["y"]))` (line 163). -/
noncomputable def clampY (y : ℝ) : ℝ :=
  max PLAYER_RADIUS (min (MAP_HEIGHT - PLAYER_RADIUS) y)

/-- One tick's update of a player's x coordinate (lines 158 and 162). -/
noncomputable def tickX (x : ℝ) (k : Keys) : ℝ :=
  clampX (x + normDx k * PLAYER_SPEED * DT)

/-- One tick's update of a player's y coordinate (lines 159 and 163). -/
noncomputable def tickY (y : ℝ) (k : Keys) : ℝ :=
  clampY (y + normDy k * PLAYER_SPEED * DT)

/-! ## Coin collection (server.py `game_loop`, lines 165-180) -/

/-- A player as the sweep sees it: identifier, position, score. -/
structure PlayerS where
  id : ℕ
  x : ℝ
  y : ℝ
  score : ℕ

/-- A coin: `{id, x, y}` (server.py line 51). -/
structure Coin where
  id : ℕ
  x : ℝ
  y : ℝ

/-- `dist = math.hypot(px - cx, py - cy)` (line 172). -/
noncomputable def coinDist (p : PlayerS) (c : Coin) : ℝ :=
  hypotR (p.x - c.x) (p.y - c.y)

/-- The collision test `dist < (PLAYER_RADIUS + COIN_RADIUS)` (line 173). -/
def inRange (p : PlayerS) (c : Coin) : Prop :=
  coinDist p c < PLAYER_RADIUS + COIN_RADIUS

/-- `p["score"] += 1` (line 175). -/
def bump (p : PlayerS) : PlayerS := { p with score := p.score + 1 }

/-- A score increase by `n`, for summarising several collections. -/
def addScore (p : PlayerS) (n : ℕ) : PlayerS := { p with score := p.score + n }

open Classical in
/-- The inner loop of the collision sweep for a single coin (lines 170-177):
walk the player snapshot in order; the first player in range gets `+1` score,
the coin is reported collected (`break`); nobody else is touched. -/
noncomputable def collectCoin (c : Coin) : List PlayerS → List PlayerS × Bool
  | [] => ([], false)
  | p :: ps =>
    if inRange p c then (bump p :: ps, true)
    else
      let r := collectCoin c ps
      (p :: r.1, r.2)

/-- The outer loop of the collision sweep (lines 167-177): visit the coins in
order, threading the player list (scores accumulate across coins) and the
`to_remove` collection. -/
noncomputable def sweepCoins : List Coin → List PlayerS → List ℕ → List PlayerS × List ℕ
  | [], ps, rem => (ps, rem)
  | c :: cs, ps, rem =>
    let r := collectCoin c ps
    sweepCoins cs r.1 (if r.2 then rem ++ [c.id] else rem)

/-- The whole collision step of a tick: sweep, then
`if to_remove: coins[:] = [c for c in coins if c["id"] not in to_remove]`
(lines 166-180). Returns the updated players and the surviving coins. -/
noncomputable def tickCollisions (ps : List PlayerS) (cs : List Coin) :
    List PlayerS × List Coin :=
  let r := sweepCoins cs ps []
  (r.1, if r.2 = [] then cs else cs.filter fun c => decide (c.id ∉ r.2))

/-! ## Client reconciliation (client.py lines 79-118 and 206-226) -/

/-- A client-side interpolation record
(`entity_state[pid]`, client.py lines 97-104). -/
structure Ent where
  x_prev : ℝ
  y_prev : ℝ
  x : ℝ
  y : ℝ
  t : ℝ
  score : ℕ

/-- `update_entities_from_server` for one listed player (client.py lines
95-113): a first sighting sets both previous and current position to the
reported one with timer 0; a later sighting shifts current to previous, sets
the new target and restarts the timer. -/
def updateEntity (cur : Option Ent) (x y : ℝ) (score : ℕ) : Ent :=
  match cur with
  | none => ⟨x, y, x, y, 0, score⟩
  | some e => ⟨e.x, e.y, x, y, 0, score⟩

/-- `alpha = min(ent["t"] / INTERP_DURATION, 1.0)` (client.py line 210). -/
noncomputable def alphaOf (t : ℝ) : ℝ := min (t / INTERP_DURATION) 1

/-- `x_draw = ent["x_prev"] + (ent["x"] - ent["x_prev"]) * alpha` (line 211). -/
def drawX (e : Ent) (a : ℝ) : ℝ := e.x_prev + (e.x - e.x_prev) * a

/-- `y_draw = ent["y_prev"] + (ent["y"] - ent["y_prev"]) * alpha` (line 212). -/
def drawY (e : Ent) (a : ℝ) : ℝ := e.y_prev + (e.y - e.y_prev) * a

/-- One frame of the local player's smoothing on one axis:
`x_draw += (ent["x"] - x_draw) * correct_speed` with `correct_speed = 0.15`
(client.py lines 216-222). `v` is the visual position, `a` the authoritative
one. -/
def blendAxis (v a : ℝ) : ℝ := v + (a - v) * 0.15

/-- Euclidean distance in the plane, for measuring visual-to-authoritative
convergence. -/
noncomputable def planeDist (vx vy ax ay : ℝ) : ℝ := hypotR (vx - ax) (vy - ay)

/-! ## Message framing (server.py lines 34-43 and 63-75, client.py lines 25-63) -/

/-- The line-feed delimiter used by the wire protocol. -/
def lf : Char := Char.ofNat 10

/-- Python `str.strip()`'s whitespace test. -/
def isWs (c : Char) : Bool :=
  c = ' ' || c = Char.ofNat 9 || c = lf || c = Char.ofNat 13 ||
    c = Char.ofNat 11 || c = Char.ofNat 12

/-- `line.strip()` on a list of characters. -/
def stripChars (l : List Char) : List Char :=
  ((l.dropWhile isWs).reverse.dropWhile isWs).reverse

/-- The encoder: `data = json.dumps(obj) + "\n"` (server.py line 36, client.py
line 71), applied to the already-serialized line `s`. -/
def encodeLine (s : List Char) : List Char := s ++ [lf]

/-- The decoding loop of `recv_messages` (client.py lines 48-63): while the
buffer holds a line feed, split off the first line, strip it, skip it when
empty, skip it when `parse` rejects it (malformed JSON), otherwise keep the
message; return the leftover buffer and the messages in arrival order. JSON
parsing is external library code, abstracted as `parse`. -/
def recvSplit {M : Type} (parse : List Char → Option M) (buffer : List Char) :
    List Char × List M :=
  if h : lf ∈ buffer then
    if stripChars (buffer.takeWhile (· != lf)) = [] then
      recvSplit parse ((buffer.dropWhile (· != lf)).tail)
    else
      match parse (stripChars (buffer.takeWhile (· != lf))) with
      | none => recvSplit parse ((buffer.dropWhile (· != lf)).tail)
      | some m =>
        ((recvSplit parse ((buffer.dropWhile (· != lf)).tail)).1,
          m :: (recvSplit parse ((buffer.dropWhile (· != lf)).tail)).2)
  else (buffer, [])
termination_by buffer.length
decreasing_by
  all_goals
    have h1 : buffer.dropWhile (· != lf) ≠ [] := by
      rw [Ne, List.dropWhile_eq_nil_iff]
      push_neg
      exact ⟨lf, h, by simp⟩
    have h2 : (buffer.dropWhile (· != lf)).length ≤ buffer.length :=
      (List.dropWhile_sublist _).length_le
    cases hd : buffer.dropWhile (· != lf) with
    | nil => exact absurd hd h1
    | cons a tl =>
      rw [hd] at h2
      simp only [hd, List.tail_cons]
      simp at h2
      omega

/-- Repeated calls to `recv_messages`: each chunk of received bytes is appended
to the carried-over buffer and drained (client.py lines 30-63); decoded
messages accumulate across calls. -/
def feedChunks {M : Type} (parse : List Char → Option M) :
    List (List Char) → List Char × List M → List Char × List M
  | [], st => st
  | c :: cs, st =>
    feedChunks parse cs
      ((recvSplit parse (st.1 ++ c)).1, st.2 ++ (recvSplit parse (st.1 ++ c)).2)

/-- The server's per-connection read loop (server.py lines 63-108), restricted
to its line-decoding discipline: `for line in f`, `line = line.strip()`,
`break` on an empty line, `continue` on a JSON decode error, otherwise act on
the message. Returns the messages the handler acts on, in order. -/
def serverReadLines {M : Type} (parse : List Char → Option M) :
    List (List Char) → List M
  | [] => []
  | l :: ls =>
    if stripChars l = [] then []
    else
      match parse (stripChars l) with
      | none => serverReadLines parse ls
      | some m => m :: serverReadLines parse ls

/-- A concrete stand-in parser over `ℕ` messages, for closed instances:
accepts exactly the line "42". -/
def parseNat42 : List Char → Option ℕ :=
  fun l => if l = ['4', '2'] then some 42 else none

/-! ## Message field defaults (server.py lines 98-108, client.py lines 183-188) -/

/-- The `keys` object of an `input` message; any flag may be absent. -/
structure KeysMsg where
  up : Option Bool
  down : Option Bool
  left : Option Bool
  right : Option Bool

/-- An `input` message; the `keys` field may be absent. -/
structure InputMsg where
  keys : Option KeysMsg

/-- server.py lines 99-108: `keys = msg.get("keys", {})`, then
`bool(keys.get("up", False))` and likewise for the other flags. -/
def decodeInput (m : InputMsg) : Keys :=
  ⟨((m.keys.getD ⟨none, none, none, none⟩).up).getD false,
   ((m.keys.getD ⟨none, none, none, none⟩).down).getD false,
   ((m.keys.getD ⟨none, none, none, none⟩).left).getD false,
   ((m.keys.getD ⟨none, none, none, none⟩).right).getD false⟩

/-- A `state` message; the `players` and `coins` lists may be absent. -/
structure StateMsg where
  players : Option (List PlayerS)
  coins : Option (List Coin)

/-- client.py line 187: `players_list = msg.get("players", [])`. -/
def statePlayers (m : StateMsg) : List PlayerS := m.players.getD []

/-- client.py line 185: `world_state["coins"] = msg.get("coins", [])`. -/
def stateCoins (m : StateMsg) : List Coin := m.coins.getD []

end CoinCollector

namespace CoinCollector

/-! ## Theorems about movement -/

theorem speed_times_dt : PLAYER_SPEED * DT = 10 := by
  norm_num [PLAYER_SPEED, DT, TICK_RATE]

theorem one_le_sqrt_two : (1 : ℝ) ≤ Real.sqrt 2 := by
  rw [show (1 : ℝ) = Real.sqrt 1 by simp]
  exact Real.sqrt_le_sqrt (by norm_num)

theorem rawDx_diag (k : Keys) (hlr : k.left ≠ k.right) :
    rawDx k = 1 ∨ rawDx k = -1 := by
  unfold rawDx
  cases hl : k.left <;> cases hr : k.right <;> simp_all

theorem rawDy_diag (k : Keys) (hud : k.up ≠ k.down) :
    rawDy k = 1 ∨ rawDy k = -1 := by
  unfold rawDy
  cases hu : k.up <;> cases hd : k.down <;> simp_all

/-- C1: after every tick, for any input flags and any pre-tick position, the
player's post-tick position satisfies `PLAYER_RADIUS ≤ x ≤ MAP_WIDTH - PLAYER_RADIUS`
and `PLAYER_RADIUS ≤ y ≤ MAP_HEIGHT - PLAYER_RADIUS`. -/
theorem tick_pos_in_bounds (x y : ℝ) (k : Keys) :
    PLAYER_RADIUS ≤ tickX x k ∧ tickX x k ≤ MAP_WIDTH - PLAYER_RADIUS ∧
    PLAYER_RADIUS ≤ tickY y k ∧ tickY y k ≤ MAP_HEIGHT - PLAYER_RADIUS := by
  refine ⟨le_max_left _ _, ?_, le_max_left _ _, ?_⟩
  · exact max_le (by norm_num [PLAYER_RADIUS, MAP_WIDTH]) (min_le_left _ _)
  · exact max_le (by norm_num [PLAYER_RADIUS, MAP_HEIGHT]) (min_le_left _ _)

/-- C3: with a diagonal input (exactly one of up/down and exactly one of
left/right set) and a position at least one step away from the bounds (so
clamping does not bind), the tick displacement has magnitude exactly
`PLAYER_SPEED * DT`, thanks to the normalisation of the movement vector. -/
theorem diagonal_displacement (x y : ℝ) (k : Keys)
    (hud : k.up ≠ k.down) (hlr : k.left ≠ k.right)
    (hx1 : PLAYER_RADIUS + PLAYER_SPEED * DT ≤ x)
    (hx2 : x ≤ MAP_WIDTH - PLAYER_RADIUS - PLAYER_SPEED * DT)
    (hy1 : PLAYER_RADIUS + PLAYER_SPEED * DT ≤ y)
    (hy2 : y ≤ MAP_HEIGHT - PLAYER_RADIUS - PLAYER_SPEED * DT) :
    hypotR (tickX x k - x) (tickY y k - y) = PLAYER_SPEED * DT := by
  have hdx1 := rawDx_diag k hlr
  have hdy1 := rawDy_diag k hud
  have hdx2 : rawDx k ^ 2 = 1 := by rcases hdx1 with h | h <;> rw [h] <;> norm_num
  have hdy2 : rawDy k ^ 2 = 1 := by rcases hdy1 with h | h <;> rw [h] <;> norm_num
  have hlen : hypotR (rawDx k) (rawDy k) = Real.sqrt 2 := by
    rw [hypotR, hdx2, hdy2]; norm_num
  have hs2pos : (0 : ℝ) < Real.sqrt 2 := lt_of_lt_of_le one_pos one_le_sqrt_two
  have hnx : normDx k = rawDx k / Real.sqrt 2 := by
    rw [normDx, hlen, if_pos hs2pos]
  have hny : normDy k = rawDy k / Real.sqrt 2 := by
    rw [normDy, hlen, if_pos hs2pos]
  have hsx_eq : normDx k * PLAYER_SPEED * DT = rawDx k * 10 / Real.sqrt 2 := by
    rw [hnx, mul_assoc, speed_times_dt]; ring
  have hsy_eq : normDy k * PLAYER_SPEED * DT = rawDy k * 10 / Real.sqrt 2 := by
    rw [hny, mul_assoc, speed_times_dt]; ring
  have hdivle : (10 : ℝ) / Real.sqrt 2 ≤ 10 := div_le_self (by norm_num) one_le_sqrt_two
  have hdivpos : (0 : ℝ) < 10 / Real.sqrt 2 := by positivity
  have hposdiv : (1 : ℝ) * 10 / Real.sqrt 2 = 10 / Real.sqrt 2 := by ring
  have hnegdiv : (-1 : ℝ) * 10 / Real.sqrt 2 = -(10 / Real.sqrt 2) := by ring
  have hsx_lb : -(10 : ℝ) ≤ normDx k * PLAYER_SPEED * DT := by
    rw [hsx_eq]; rcases hdx1 with h | h <;> rw [h] <;> [rw [hposdiv]; rw [hnegdiv]] <;> linarith
  have hsx_ub : normDx k * PLAYER_SPEED * DT ≤ 10 := by
    rw [hsx_eq]; rcases hdx1 with h | h <;> rw [h] <;> [rw [hposdiv]; rw [hnegdiv]] <;> linarith
  have hsy_lb : -(10 : ℝ) ≤ normDy k * PLAYER_SPEED * DT := by
    rw [hsy_eq]; rcases hdy1 with h | h <;> rw [h] <;> [rw [hposdiv]; rw [hnegdiv]] <;> linarith
  have hsy_ub : normDy k * PLAYER_SPEED * DT ≤ 10 := by
    rw [hsy_eq]; rcases hdy1 with h | h <;> rw [h] <;> [rw [hposdiv]; rw [hnegdiv]] <;> linarith
  rw [speed_times_dt] at hx1 hx2 hy1 hy2
  have hR : PLAYER_RADIUS = 20 := by norm_num [PLAYER_RADIUS]
  have hW : MAP_WIDTH = 800 := by norm_num [MAP_WIDTH]
  have hH : MAP_HEIGHT = 600 := by norm_num [MAP_HEIGHT]
  rw [hR] at hx1 hy1
  rw [hR, hW] at hx2
  rw [hR, hH] at hy2
  have hcx : tickX x k = x + normDx k * PLAYER_SPEED * DT := by
    rw [tickX, clampX, hR, hW, min_eq_right (by linarith), max_eq_right (by linarith)]
  have hcy : tickY y k = y + normDy k * PLAYER_SPEED * DT := by
    rw [tickY, clampY, hR, hH, min_eq_right (by linarith), max_eq_right (by linarith)]
  have hsqx : (rawDx k * 10 / Real.sqrt 2) ^ 2 = 50 := by
    rw [div_pow, mul_pow, hdx2, Real.sq_sqrt (by norm_num : (0:ℝ) ≤ 2)]
    norm_num
  have hsqy : (rawDy k * 10 / Real.sqrt 2) ^ 2 = 50 := by
    rw [div_pow, mul_pow, hdy2, Real.sq_sqrt (by norm_num : (0:ℝ) ≤ 2)]
    norm_num
  rw [hypotR, hcx, hcy, add_sub_cancel_left, add_sub_cancel_left, hsx_eq, hsy_eq,
    hsqx, hsqy, speed_times_dt]
  rw [show (50 : ℝ) + 50 = 10 ^ 2 by norm_num, Real.sqrt_sq (by norm_num : (0:ℝ) ≤ 10)]

/-- C3 witness: a concrete up+right input at position (400, 300). -/
theorem diagonal_displacement_witness :
    hypotR (tickX 400 ⟨true, false, false, true⟩ - 400)
      (tickY 300 ⟨true, false, false, true⟩ - 300) = PLAYER_SPEED * DT :=
  diagonal_displacement 400 300 ⟨true, false, false, true⟩ (by decide) (by decide)
    (by norm_num [PLAYER_RADIUS, PLAYER_SPEED, DT, TICK_RATE])
    (by norm_num [PLAYER_RADIUS, PLAYER_SPEED, MAP_WIDTH, DT, TICK_RATE])
    (by norm_num [PLAYER_RADIUS, PLAYER_SPEED, DT, TICK_RATE])
    (by norm_num [PLAYER_RADIUS, PLAYER_SPEED, MAP_HEIGHT, DT, TICK_RATE])

/-! ## Theorems about the coin sweep -/

theorem inRange_iff (p : PlayerS) (c : Coin) :
    inRange p c ↔ (p.x - c.x) ^ 2 + (p.y - c.y) ^ 2 < 1225 := by
  rw [inRange, coinDist, hypotR,
    show PLAYER_RADIUS + COIN_RADIUS = (35 : ℝ) by norm_num [PLAYER_RADIUS, COIN_RADIUS],
    Real.sqrt_lt' (by norm_num)]
  norm_num

theorem inRange_bump (p : PlayerS) (c : Coin) : inRange (bump p) c ↔ inRange p c :=
  Iff.rfl

theorem collectCoin_cons_hit (c : Coin) (p : PlayerS) (ps : List PlayerS)
    (h : inRange p c) : collectCoin c (p :: ps) = (bump p :: ps, true) := by
  simp only [collectCoin]
  rw [if_pos h]

theorem collectCoin_cons_miss (c : Coin) (p : PlayerS) (ps : List PlayerS)
    (h : ¬ inRange p c) :
    collectCoin c (p :: ps) = (p :: (collectCoin c ps).1, (collectCoin c ps).2) := by
  simp only [collectCoin]
  rw [if_neg h]

theorem collectCoin_firstHit (c : Coin) (pre post : List PlayerS) (p : PlayerS)
    (hmiss : ∀ q ∈ pre, ¬ inRange q c) (hhit : inRange p c) :
    collectCoin c (pre ++ p :: post) = (pre ++ bump p :: post, true) := by
  induction pre with
  | nil => simpa using collectCoin_cons_hit c p post hhit
  | cons q pre ih =>
    have hq : ¬ inRange q c := hmiss q (by simp)
    have ih2 := ih fun r hr => hmiss r (by simp [hr])
    rw [List.cons_append, collectCoin_cons_miss c q _ hq, ih2]
    simp

theorem collectCoin_allMiss (c : Coin) (ps : List PlayerS)
    (h : ∀ p ∈ ps, ¬ inRange p c) : collectCoin c ps = (ps, false) := by
  induction ps with
  | nil => rfl
  | cons p ps ih =>
    rw [collectCoin_cons_miss c p ps (h p (by simp)), ih fun q hq => h q (by simp [hq])]

/-- C2: in one tick's sweep, a coin in range of the player `p` — with every
player before `p` in snapshot order out of range, and a second in-range player
`q` later in the order — is collected by `p` alone: `p` gains exactly one
point, every other player (including `q`) is unchanged, and the coin is gone
from the world state after the sweep. -/
theorem coin_collected_by_first_only (c : Coin) (pre post : List PlayerS) (p q : PlayerS)
    (hmiss : ∀ r ∈ pre, ¬ inRange r c) (hhit : inRange p c)
    (hq : q ∈ post) (hq2 : inRange q c) :
    collectCoin c (pre ++ p :: post) = (pre ++ bump p :: post, true) ∧
    (tickCollisions (pre ++ p :: post) [c]).2 = [] := by
  have h1 := collectCoin_firstHit c pre post p hmiss hhit
  refine ⟨h1, ?_⟩
  simp [tickCollisions, sweepCoins, h1]

/-- C2 witness: two players both within range of one coin; the first in
snapshot order collects it. -/
theorem coin_collected_by_first_only_witness :
    collectCoin ⟨7, 100, 100⟩ ([] ++ (⟨1, 100, 100, 0⟩ : PlayerS) :: [⟨2, 110, 100, 0⟩])
      = ([] ++ bump ⟨1, 100, 100, 0⟩ :: [⟨2, 110, 100, 0⟩], true) ∧
    (tickCollisions ([] ++ (⟨1, 100, 100, 0⟩ : PlayerS) :: [⟨2, 110, 100, 0⟩])
      [⟨7, 100, 100⟩]).2 = [] :=
  coin_collected_by_first_only ⟨7, 100, 100⟩ [] [⟨2, 110, 100, 0⟩] ⟨1, 100, 100, 0⟩
    ⟨2, 110, 100, 0⟩ (by simp) ((inRange_iff _ _).mpr (by norm_num)) (by simp)
    ((inRange_iff _ _).mpr (by norm_num))

theorem sweepCoins_all_hit (cs : List Coin) (pre post : List PlayerS) (p : PlayerS)
    (rem : List ℕ) (h : ∀ c ∈ cs, (∀ q ∈ pre, ¬ inRange q c) ∧ inRange p c) :
    sweepCoins cs (pre ++ p :: post) rem
      = (pre ++ addScore p cs.length :: post, rem ++ cs.map Coin.id) := by
  induction cs generalizing p rem with
  | nil =>
    simp [sweepCoins, addScore]
  | cons c cs ih =>
    obtain ⟨hm, hh⟩ := h c (by simp)
    have hstep := collectCoin_firstHit c pre post p hm hh
    have hbump : ∀ c' ∈ cs, (∀ q ∈ pre, ¬ inRange q c') ∧ inRange (bump p) c' := by
      intro c' hc'
      exact ⟨(h c' (by simp [hc'])).1, (inRange_bump p c').mpr (h c' (by simp [hc'])).2⟩
    have ih2 := ih (bump p) (rem ++ [c.id]) hbump
    have hsc : addScore (bump p) cs.length = addScore p (cs.length + 1) := by
      simp [addScore, bump]
      omega
    have hone : sweepCoins (c :: cs) (pre ++ p :: post) rem
        = sweepCoins cs (pre ++ bump p :: post) (rem ++ [c.id]) := by
      rw [sweepCoins, hstep]
      rfl
    rw [hone, ih2, hsc]
    simp

/-- C8: a player in range of every coin in the tick's coin list (and first in
snapshot order for each of them) collects them all in that single tick,
gaining one point per coin; afterwards no coin survives. There is no
one-coin-per-player-per-tick cap. -/
theorem player_collects_all_coins (cs : List Coin) (pre post : List PlayerS) (p : PlayerS)
    (h : ∀ c ∈ cs, (∀ q ∈ pre, ¬ inRange q c) ∧ inRange p c) :
    (tickCollisions (pre ++ p :: post) cs).1 = pre ++ addScore p cs.length :: post ∧
    (tickCollisions (pre ++ p :: post) cs).2 = [] := by
  have hs := sweepCoins_all_hit cs pre post p [] h
  constructor
  · simp [tickCollisions, hs]
  · cases cs with
    | nil => simp [tickCollisions, sweepCoins]
    | cons c cs =>
      simp only [tickCollisions, hs]
      rw [if_neg (by simp)]
      rw [List.filter_eq_nil_iff]
      intro c' hc'
      simp only [decide_not, Bool.not_eq_true', decide_eq_false_iff_not, not_not]
      exact List.mem_map_of_mem Coin.id hc'

/-- C8 witness: one player within range of two distinct coins collects both,
gaining two points in the tick. -/
theorem player_collects_all_coins_witness :
    (tickCollisions ([] ++(⟨1, 100, 100, 0⟩ : PlayerS) :: [])
        [⟨7, 100, 100⟩, ⟨8, 105, 100⟩]).1
      = [] ++ addScore ⟨1, 100, 100, 0⟩ 2 :: [] ∧
    (tickCollisions ([] ++ (⟨1, 100, 100, 0⟩ : PlayerS) :: [])
        [⟨7, 100, 100⟩, ⟨8, 105, 100⟩]).2 = [] := by
  have h : ∀ c ∈ ([⟨7, 100, 100⟩, ⟨8, 105, 100⟩] : List Coin),
      (∀ q ∈ ([] : List PlayerS), ¬ inRange q c) ∧
      inRange (⟨1, 100, 100, 0⟩ : PlayerS) c := by
    intro c hc
    refine ⟨by simp, ?_⟩
    rcases List.mem_cons.mp hc with h1 | h1
    · subst h1; exact (inRange_iff _ _).mpr (by norm_num)
    · rcases List.mem_cons.mp h1 with h2 | h2
      · subst h2; exact (inRange_iff _ _).mpr (by norm_num)
      · exact absurd h2 (List.not_mem_nil c)
  exact player_collects_all_coins [⟨7, 100, 100⟩, ⟨8, 105, 100⟩] [] [] ⟨1, 100, 100, 0⟩ h

/-- C10: the collision test is strict: a coin whose distance to every player is
at least `PLAYER_RADIUS + COIN_RADIUS` (in particular, exactly equal to it) is
not collected — the player list, including every score, and the coin list are
unchanged by the sweep. -/
theorem coin_at_threshold_not_collected (c : Coin) (ps : List PlayerS)
    (h : ∀ p ∈ ps, ¬ inRange p c) :
    collectCoin c ps = (ps, false) ∧ tickCollisions ps [c] = (ps, [c]) ∧
    (∀ qs : List PlayerS, (collectCoin c qs).2 = true → ∃ q ∈ qs, inRange q c) := by
  have h1 := collectCoin_allMiss c ps h
  refine ⟨h1, by simp [tickCollisions, sweepCoins, h1], ?_⟩
  intro qs
  induction qs with
  | nil => intro hfalse; simp [collectCoin] at hfalse
  | cons q qs ih =>
    intro htrue
    by_cases hq : inRange q c
    · exact ⟨q, by simp, hq⟩
    · rw [collectCoin_cons_miss c q qs hq] at htrue
      obtain ⟨r, hr, hr2⟩ := ih htrue
      exact ⟨r, by simp [hr], hr2⟩

/-- C10 witness: a player at distance exactly `35 = PLAYER_RADIUS + COIN_RADIUS`
from the coin does not collect it. -/
theorem coin_at_threshold_not_collected_witness :
    collectCoin ⟨7, 135, 100⟩ [⟨1, 100, 100, 3⟩] = ([⟨1, 100, 100, 3⟩], false) ∧
    tickCollisions [⟨1, 100, 100, 3⟩] [⟨7, 135, 100⟩]
      = ([⟨1, 100, 100, 3⟩], [⟨7, 135, 100⟩]) ∧
    (∀ qs : List PlayerS, (collectCoin ⟨7, 135, 100⟩ qs).2 = true →
      ∃ q ∈ qs, inRange q ⟨7, 135, 100⟩) :=
  coin_at_threshold_not_collected ⟨7, 135, 100⟩ [⟨1, 100, 100, 3⟩] (by
    intro p hp
    simp only [List.mem_singleton] at hp
    subst hp
    rw [inRange_iff]
    norm_num)

/-! ## Theorems about client reconciliation -/

/-- C6: one frame of the local player's corrective blend, with the code's
correction rate `0.15 ∈ (0,1)` and the authoritative position held fixed,
strictly decreases the distance from the visual position to the authoritative
position (whenever they differ), and never moves the visual position past the
authoritative one on either axis. -/
theorem local_correction_converges (vx vy ax ay : ℝ) (h : ¬(vx = ax ∧ vy = ay)) :
    planeDist (blendAxis vx ax) (blendAxis vy ay) ax ay < planeDist vx vy ax ay ∧
    (∀ v a : ℝ, v ≤ a → blendAxis v a ≤ a) ∧
    (∀ v a : ℝ, a ≤ v → a ≤ blendAxis v a) := by
  refine ⟨?_, ?_, ?_⟩
  · have hbx : blendAxis vx ax - ax = (vx - ax) * 0.85 := by
      unfold blendAxis; ring
    have hby : blendAxis vy ay - ay = (vy - ay) * 0.85 := by
      unfold blendAxis; ring
    have hs : 0 < (vx - ax) ^ 2 + (vy - ay) ^ 2 := by
      rcases not_and_or.mp h with h1 | h1
      · have h2 : vx - ax ≠ 0 := sub_ne_zero.mpr h1
        have h3 : 0 < (vx - ax) ^ 2 := by positivity
        nlinarith [sq_nonneg (vy - ay)]
      · have h2 : vy - ay ≠ 0 := sub_ne_zero.mpr h1
        have h3 : 0 < (vy - ay) ^ 2 := by positivity
        nlinarith [sq_nonneg (vx - ax)]
    rw [planeDist, planeDist, hypotR, hypotR, hbx, hby]
    apply Real.sqrt_lt_sqrt (by positivity)
    nlinarith
  · intro v a hva
    unfold blendAxis
    nlinarith
  · intro v a hva
    unfold blendAxis
    nlinarith

/-- C6 witness: visual position (0, 0), authoritative position (1, 0). -/
theorem local_correction_converges_witness :
    planeDist (blendAxis 0 1) (blendAxis 0 0) 1 0 < planeDist 0 0 1 0 ∧
    (∀ v a : ℝ, v ≤ a → blendAxis v a ≤ a) ∧
    (∀ v a : ℝ, a ≤ v → a ≤ blendAxis v a) :=
  local_correction_converges 0 0 1 0 (by norm_num)

/-- C7: on a first sighting the record stores the reported position as both
previous and current, the timer is 0, alpha evaluates to 0 and the drawn
position is exactly the reported one; and once the elapsed time reaches
`INTERP_DURATION`, alpha clamps to 1 and the drawn position is exactly the
current target. -/
theorem interp_endpoints :
    (∀ (x y : ℝ) (s : ℕ),
      (updateEntity none x y s).x_prev = x ∧ (updateEntity none x y s).y_prev = y ∧
      (updateEntity none x y s).x = x ∧ (updateEntity none x y s).y = y ∧
      alphaOf (updateEntity none x y s).t = 0 ∧
      drawX (updateEntity none x y s) (alphaOf (updateEntity none x y s).t) = x ∧
      drawY (updateEntity none x y s) (alphaOf (updateEntity none x y s).t) = y) ∧
    (∀ (e : Ent) (t : ℝ), INTERP_DURATION ≤ t →
      alphaOf t = 1 ∧ drawX e (alphaOf t) = e.x ∧ drawY e (alphaOf t) = e.y) := by
  have hID : INTERP_DURATION = 0.1 := by norm_num [INTERP_DURATION]
  constructor
  · intro x y s
    have ht : (updateEntity none x y s).t = 0 := rfl
    have ha : alphaOf (updateEntity none x y s).t = 0 := by
      rw [ht, alphaOf, zero_div]
      exact min_eq_left (by norm_num)
    refine ⟨rfl, rfl, rfl, rfl, ha, ?_, ?_⟩
    · rw [ha, drawX]; simp [updateEntity]
    · rw [ha, drawY]; simp [updateEntity]
  · intro e t hit
    rw [hID] at hit
    have ha : alphaOf t = 1 := by
      rw [alphaOf, hID]
      exact min_eq_right ((le_div_iff (by norm_num)).mpr (by linarith))
    refine ⟨ha, ?_, ?_⟩
    · rw [ha, drawX]; ring
    · rw [ha, drawY]; ring

/-- C7 witness: a first sighting at (5, 6), and an entity whose timer has
reached 0.25 ≥ INTERP_DURATION. -/
theorem interp_endpoints_witness :
    ((updateEntity none 5 6 0).x_prev = 5 ∧ (updateEntity none 5 6 0).y_prev = 6 ∧
      (updateEntity none 5 6 0).x = 5 ∧ (updateEntity none 5 6 0).y = 6 ∧
      alphaOf (updateEntity none 5 6 0).t = 0 ∧
      drawX (updateEntity none 5 6 0) (alphaOf (updateEntity none 5 6 0).t) = 5 ∧
      drawY (updateEntity none 5 6 0) (alphaOf (updateEntity none 5 6 0).t) = 6) ∧
    (alphaOf 0.25 = 1 ∧
      drawX ⟨1, 2, 3, 4, 0.25, 0⟩ (alphaOf 0.25) = (3 : ℝ) ∧
      drawY ⟨1, 2, 3, 4, 0.25, 0⟩ (alphaOf 0.25) = (4 : ℝ)) :=
  ⟨interp_endpoints.1 5 6 0,
   interp_endpoints.2 ⟨1, 2, 3, 4, 0.25, 0⟩ 0.25 (by norm_num [INTERP_DURATION])⟩

/-! ## Theorems about message framing -/

theorem lf_not_mem_takeWhile (l : List Char) : lf ∉ l.takeWhile (· != lf) := by
  intro h
  have := List.mem_takeWhile_imp h
  simp at this

theorem split_tail_length {l : List Char} (h : lf ∈ l) :
    ((l.dropWhile (· != lf)).tail).length < l.length := by
  have h1 : l.dropWhile (· != lf) ≠ [] := by
    rw [Ne, List.dropWhile_eq_nil_iff]
    push_neg
    exact ⟨lf, h, by simp⟩
  have h2 : (l.dropWhile (· != lf)).length ≤ l.length :=
    (List.dropWhile_sublist _).length_le
  cases hd : l.dropWhile (· != lf) with
  | nil => exact absurd hd h1
  | cons a tl =>
    rw [hd] at h2
    simp only [hd, List.tail_cons]
    simp at h2
    omega

theorem split_decomp : ∀ {l : List Char}, lf ∈ l →
    l = l.takeWhile (· != lf) ++ lf :: (l.dropWhile (· != lf)).tail := by
  intro l h
  induction l with
  | nil => cases h
  | cons a l ih =>
    by_cases ha : a = lf
    · subst ha
      simp [List.takeWhile_cons, List.dropWhile_cons]
    · have ha2 : (a != lf) = true := by simp [bne_iff_ne, ha]
      have hm : lf ∈ l := by
        rcases List.mem_cons.mp h with h1 | h1
        · exact absurd h1.symm ha
        · exact h1
      simp only [List.takeWhile_cons, List.dropWhile_cons, ha2, if_true, List.cons_append]
      exact congrArg (List.cons a) (ih hm)

theorem takeWhile_lf_of_append (s t : List Char) (hs : lf ∉ s) :
    (s ++ lf :: t).takeWhile (· != lf) = s ∧
    (s ++ lf :: t).dropWhile (· != lf) = lf :: t := by
  induction s with
  | nil => simp [List.takeWhile_cons, List.dropWhile_cons]
  | cons a s ih =>
    have ha : (a != lf) = true := by
      simp only [bne_iff_ne, ne_eq]
      intro e
      exact hs (by simp [e])
    have ih2 := ih fun hm => hs (by simp [hm])
    constructor
    · simp [List.takeWhile_cons, ha, ih2.1]
    · simp [List.dropWhile_cons, ha, ih2.2]

theorem recvSplit_no_lf {M : Type} (parse : List Char → Option M) (buffer : List Char)
    (h : lf ∉ buffer) : recvSplit parse buffer = (buffer, []) := by
  rw [recvSplit]
  rw [dif_neg h]

theorem recvSplit_line {M : Type} (parse : List Char → Option M) (s t : List Char)
    (hs : lf ∉ s) :
    recvSplit parse (s ++ lf :: t) =
      ((recvSplit parse t).1,
        (if stripChars s = [] then [] else
          match parse (stripChars s) with
          | none => []
          | some m => [m]) ++ (recvSplit parse t).2) := by
  obtain ⟨h1, h2⟩ := takeWhile_lf_of_append s t hs
  rw [recvSplit]
  rw [dif_pos (by simp : lf ∈ s ++ lf :: t)]
  rw [h1, h2]
  simp only [List.tail_cons]
  by_cases he : stripChars s = []
  · simp only [if_pos he]
    simp
  · simp only [if_neg he]
    cases hp : parse (stripChars s) with
    | none => simp
    | some m => simp

theorem recvSplit_buf_no_lf {M : Type} (parse : List Char → Option M)
    (buffer : List Char) : lf ∉ (recvSplit parse buffer).1 := by
  suffices H : ∀ (n : ℕ) (b : List Char), b.length ≤ n → lf ∉ (recvSplit parse b).1 from
    H buffer.length buffer le_rfl
  intro n
  induction n with
  | zero =>
    intro b hb
    have hbnil : b = [] := List.eq_nil_of_length_eq_zero (by omega)
    subst hbnil
    rw [recvSplit_no_lf parse [] (by simp)]
    simp
  | succ n ih =>
    intro b hb
    by_cases h : lf ∈ b
    · have hdec := split_decomp h
      have htk := lf_not_mem_takeWhile b
      rw [hdec, recvSplit_line parse _ _ htk]
      have hlt : ((b.dropWhile (· != lf)).tail).length ≤ n := by
        have := split_tail_length h
        omega
      exact ih _ hlt
    · rw [recvSplit_no_lf parse b h]
      exact h

theorem recvSplit_append {M : Type} (parse : List Char → Option M)
    (a b : List Char) :
    recvSplit parse (a ++ b) =
      ((recvSplit parse ((recvSplit parse a).1 ++ b)).1,
        (recvSplit parse a).2 ++ (recvSplit parse ((recvSplit parse a).1 ++ b)).2) := by
  suffices H : ∀ (n : ℕ) (a : List Char), a.length ≤ n →
      recvSplit parse (a ++ b) =
        ((recvSplit parse ((recvSplit parse a).1 ++ b)).1,
          (recvSplit parse a).2 ++ (recvSplit parse ((recvSplit parse a).1 ++ b)).2) from
    H a.length a le_rfl
  intro n
  induction n with
  | zero =>
    intro a ha
    have hanil : a = [] := List.eq_nil_of_length_eq_zero (by omega)
    subst hanil
    rw [recvSplit_no_lf parse [] (by simp)]
    simp
  | succ n ih =>
    intro a ha
    by_cases h : lf ∈ a
    · have hdec := split_decomp h
      have htk := lf_not_mem_takeWhile a
      have hlt : ((a.dropWhile (· != lf)).tail).length ≤ n := by
        have := split_tail_length h
        omega
      rw [hdec]
      rw [show (a.takeWhile (· != lf) ++ lf :: (a.dropWhile (· != lf)).tail) ++ b
            = a.takeWhile (· != lf) ++ lf :: ((a.dropWhile (· != lf)).tail ++ b) by simp]
      rw [recvSplit_line parse _ _ htk, recvSplit_line parse _ _ htk]
      rw [ih _ hlt]
      simp [List.append_assoc]
    · rw [recvSplit_no_lf parse a h]
      simp

theorem feedChunks_eq {M : Type} (parse : List Char → Option M) :
    ∀ (cs : List (List Char)) (b : List Char) (ms : List M), lf ∉ b →
      feedChunks parse cs (b, ms) =
        ((recvSplit parse (b ++ cs.flatten)).1,
          ms ++ (recvSplit parse (b ++ cs.flatten)).2) := by
  intro cs
  induction cs with
  | nil =>
    intro b ms hb
    simp [feedChunks, recvSplit_no_lf parse b hb]
  | cons c cs ih =>
    intro b ms hb
    rw [feedChunks]
    rw [ih _ _ (recvSplit_buf_no_lf parse (b ++ c))]
    have happ := recvSplit_append parse (b ++ c) cs.flatten
    rw [List.flatten_cons,
      show b ++ (c ++ cs.flatten) = (b ++ c) ++ cs.flatten from
        (List.append_assoc b c cs.flatten).symm,
      happ]
    simp [List.append_assoc]

/-- C4: framing round-trip. For a serialized message line `s` (delimiter-free,
whitespace-trimmed, non-empty, parsed back to the message `m` by the decoder's
parser), any split of `encodeLine s ++ t` into successive chunks — `t` being
trailing bytes with no delimiter yet — fed through the buffered decoder yields
exactly `[m]`, with `t` retained as the leftover buffer. -/
theorem framing_round_trip {M : Type} (parse : List Char → Option M) (m : M)
    (s t : List Char) (chunks : List (List Char))
    (hnl : lf ∉ s) (hstrip : stripChars s = s) (hne : s ≠ [])
    (hparse : parse s = some m) (ht : lf ∉ t)
    (hflat : chunks.flatten = encodeLine s ++ t) :
    feedChunks parse chunks ([], []) = (t, [m]) := by
  rw [feedChunks_eq parse chunks [] [] (by simp)]
  rw [List.nil_append, hflat,
    show encodeLine s ++ t = s ++ lf :: t by simp [encodeLine],
    recvSplit_line parse s t hnl, recvSplit_no_lf parse t ht, hstrip, if_neg hne, hparse]
  simp

/-- C4 witness: the message line "42" followed by the delimiter and a trailing
byte, split into two chunks at an arbitrary boundary. -/
theorem framing_round_trip_witness :
    feedChunks parseNat42 [['4'], ['2', lf, 'x']] ([], []) = (['x'], [42]) :=
  framing_round_trip parseNat42 42 ['4', '2'] ['x'] [['4'], ['2', lf, 'x']]
    (by decide) (by decide) (by decide) rfl (by decide) rfl

/-- C5 counterexample: the server's read loop terminates at an empty line.
A valid message line alone is decoded and acted on, but placing an empty line
before it makes the server process nothing — the later message is lost, so an
empty line does terminate processing of the server's stream, contrary to the
claim. -/
theorem server_stops_at_empty_line :
    serverReadLines parseNat42 [['4', '2', lf]] = [42] ∧
    serverReadLines parseNat42 [[lf], ['4', '2', lf]] = [] ∧
    ¬ (42 : ℕ) ∈ serverReadLines parseNat42 [[lf], ['4', '2', lf]] := by
  refine ⟨rfl, rfl, ?_⟩
  intro h
  simp [serverReadLines, stripChars, isWs, parseNat42] at h

/-- C5 amended: malformed lines are dropped silently by both decoders and
decoding of the stream continues past them; an empty line is ignored by the
client's decoder; the server's read loop instead terminates at an empty
(after strip) line, so messages after it are not processed. -/
theorem malformed_and_empty_lines {M : Type} (parse : List Char → Option M)
    (e bad g : List Char) (m : M) (ls : List (List Char))
    (he : stripChars e = []) (henl : lf ∉ e)
    (hbnl : lf ∉ bad) (hbne : stripChars bad ≠ [])
    (hbad : parse (stripChars bad) = none)
    (hgnl : lf ∉ g) (hgs : stripChars g = g) (hgne : g ≠ [])
    (hparse : parse g = some m) :
    recvSplit parse (e ++ (lf :: (bad ++ (lf :: (g ++ [lf]))))) = ([], [m]) ∧
    serverReadLines parse (bad :: ls) = serverReadLines parse ls ∧
    serverReadLines parse (e :: ls) = [] := by
  refine ⟨?_, ?_, ?_⟩
  · rw [recvSplit_line parse e _ henl, if_pos he,
      recvSplit_line parse bad _ hbnl, if_neg hbne, hbad,
      show g ++ [lf] = g ++ lf :: [] from rfl,
      recvSplit_line parse g [] hgnl, hgs, if_neg hgne, hparse,
      recvSplit_no_lf parse [] (by simp)]
    simp
  · rw [serverReadLines, if_neg hbne, hbad]
  · rw [serverReadLines, if_pos he]

/-- C5 amended witness: an empty line, a malformed line "x" and the valid line
"42". -/
theorem malformed_and_empty_lines_witness :
    recvSplit parseNat42 ([' '] ++ (lf :: (['x'] ++ (lf :: (['4', '2'] ++ [lf])))))
      = ([], [42]) ∧
    serverReadLines parseNat42 [['x'], ['4', '2']]
      = serverReadLines parseNat42 [['4', '2']] ∧
    serverReadLines parseNat42 [[' '], ['4', '2']] = [] :=
  malformed_and_empty_lines parseNat42 [' '] ['x'] ['4', '2'] 42 [['4', '2']]
    rfl (by decide) (by decide) (by decide) rfl (by decide) rfl (by decide) rfl

/-! ## Theorems about message field defaults -/

/-- C9: decoding never fails for a missing field — a missing `keys` object or a
missing flag decodes to `false`, and a missing `players` or `coins` list
decodes to the empty list; the message is processed with those defaults. -/
theorem missing_fields_default :
    (∀ m : InputMsg, m.keys = none → decodeInput m = ⟨false, false, false, false⟩) ∧
    (∀ k : KeysMsg, k.up = none → (decodeInput ⟨some k⟩).up = false) ∧
    (∀ k : KeysMsg, k.down = none → (decodeInput ⟨some k⟩).down = false) ∧
    (∀ k : KeysMsg, k.left = none → (decodeInput ⟨some k⟩).left = false) ∧
    (∀ k : KeysMsg, k.right = none → (decodeInput ⟨some k⟩).right = false) ∧
    (∀ s : StateMsg, s.players = none → statePlayers s = []) ∧
    (∀ s : StateMsg, s.coins = none → stateCoins s = []) := by
  refine ⟨?_, ?_, ?_, ?_, ?_, ?_, ?_⟩ <;> intro a h <;>
    simp [decodeInput, statePlayers, stateCoins, h]

/-- C9 witness: each fallback evaluated on a concrete message with the field
absent. -/
theorem missing_fields_default_witness :
    decodeInput ⟨none⟩ = ⟨false, false, false, false⟩ ∧
    (decodeInput ⟨some ⟨none, some true, some true, some true⟩⟩).up = false ∧
    (decodeInput ⟨some ⟨some true, none, some true, some true⟩⟩).down = false ∧
    (decodeInput ⟨some ⟨some true, some true, none, some true⟩⟩).left = false ∧
    (decodeInput ⟨some ⟨some true, some true, some true, none⟩⟩).right = false ∧
    statePlayers ⟨none, some []⟩ = [] ∧
    stateCoins ⟨some [], none⟩ = [] :=
  ⟨missing_fields_default.1 ⟨none⟩ rfl,
   missing_fields_default.2.1 ⟨none, some true, some true, some true⟩ rfl,
   missing_fields_default.2.2.1 ⟨some true, none, some true, some true⟩ rfl,
   missing_fields_default.2.2.2.1 ⟨some true, some true, none, some true⟩ rfl,
   missing_fields_default.2.2.2.2.1 ⟨some true, some true, some true, none⟩ rfl,
   missing_fields_default.2.2.2.2.2.1 ⟨none, some []⟩ rfl,
   missing_fields_default.2.2.2.2.2.2 ⟨some [], none⟩ rfl⟩

end CoinCollector
